import Mathlib

/-!
Verification of the tealdeer client (src/main.rs) against its specification.

Rust strings are embedded as `List Char`; byte-indexed slicing (`&s[..n]`)
is partial, returning `none` when the byte index does not fall on a UTF-8
character boundary (a Rust panic). Functions that may panic return `Option`.
-/

/-- UTF-8 encoded byte length of one character (Rust `char::len_utf8`). -/
def utf8Len (c : Char) : Nat :=
  if c.val < 128 then 1
  else if c.val < 2048 then 2
  else if c.val < 65536 then 3
  else 4

/-- Byte length of a string (Rust `str::len`). -/
def byteLen (s : List Char) : Nat :=
  (s.map utf8Len).sum

/-- Rust byte slice `&s[..n]`: the characters making up the first `n` bytes,
or `none` when `n` is not a character boundary (Rust panics there). -/
def takeBytes : List Char → Nat → Option (List Char)
  | _, 0 => some []
  | [], _ + 1 => none
  | c :: rest, n + 1 =>
      if utf8Len c ≤ n + 1 then (takeBytes rest (n + 1 - utf8Len c)).map (fun t => c :: t)
      else none

/-- Helper for `splitColon`, carrying the current piece (reversed). -/
def splitColonAux : List Char → List Char → List (List Char)
  | [], acc => [acc.reverse]
  | c :: rest, acc =>
      if c = ':' then acc.reverse :: splitColonAux rest []
      else splitColonAux rest (c :: acc)

/-- Rust `str::split(':')`: splits on every colon, keeping empty pieces;
the empty string splits into one empty piece. -/
def splitColon (s : List Char) : List (List Char) :=
  splitColonAux s []

/-- The sentinel locale value `"POSIX"`. -/
def posixS : List Char := "POSIX".toList

/-- The default language code `"en"`. -/
def enS : List Char := "en".toList

/-- The codes pushed for one locale candidate (body of the `for locale in
locales` loop of `get_languages`, src/main.rs lines 362-371): the 5-byte
region form when byte length ≥ 5 and the third character is an underscore,
then the 2-byte language form when byte length ≥ 2 and the candidate is not
`"POSIX"`. `none` models a panicking byte slice. -/
def pushesFor (l : List Char) : Option (List (List Char)) :=
  match (if 5 ≤ byteLen l ∧ l.get? 2 = some '_' then (takeBytes l 5).map (fun s => [s]) else some []) with
  | none => none
  | some a =>
    match (if 2 ≤ byteLen l ∧ l ≠ posixS then (takeBytes l 2).map (fun s => [s]) else some []) with
    | none => none
    | some b => some (a ++ b)

/-- Runs `pushesFor` over all locale candidates in order, concatenating the
pushed codes; the first panic aborts. -/
def processLocales : List (List Char) → Option (List (List Char))
  | [] => some []
  | l :: rest =>
    match pushesFor l with
    | none => none
    | some a =>
      match processLocales rest with
      | none => none
      | some b => some (a ++ b)

/-- Helper for `clear_duplicates`: drops elements already in `seen`. -/
def dedupAux {α : Type} [DecidableEq α] : List α → List α → List α
  | [], _ => []
  | x :: xs, seen =>
      if x ∈ seen then dedupAux xs seen
      else x :: dedupAux xs (x :: seen)

/-- Modelled from the spec: `Vec::clear_duplicates` from the missing module
`dedup.rs` — "Deduplicate preserving first occurrence." -/
def clear_duplicates {α : Type} [DecidableEq α] (l : List α) : List α :=
  dedupAux l []

/-- `get_languages` (src/main.rs lines 346-376): builds the language
preference list from the optional `$LANG` and `$LANGUAGE` values. The
candidate sequence is the colon-split `$LANGUAGE` (empty string when absent)
followed by `$LANG`; `"en"` is appended and duplicates are cleared keeping
the first occurrence. Returns `none` when a byte slice panics. -/
def get_languages (env_lang env_language : Option (List Char)) : Option (List (List Char)) :=
  match env_lang with
  | none => some [enS]
  | some lang =>
    match processLocales (splitColon (env_language.getD []) ++ [lang]) with
    | none => none
    | some list => some (clear_duplicates (list ++ [enS]))

/-- The language list used for a command lookup (src/main.rs lines 508-510):
an explicit `--language` override is used verbatim as a one-element list,
otherwise the environment-derived `get_languages` result is used. -/
def commandLanguages (override : Option (List Char)) (env_lang env_language : Option (List Char)) :
    Option (List (List Char)) :=
  match override with
  | some lang => some [lang]
  | none => get_languages env_lang env_language

/-- Whether every character of a string is ASCII (one UTF-8 byte). -/
def allAscii (s : List Char) : Bool :=
  s.all (fun c => decide (c.val < 128))

/-- `allAscii` lifted to an optional string (`true` on `none`). -/
def optionAllAscii : Option (List Char) → Bool
  | none => true
  | some s => allAscii s

/-- The `updates` section of the configuration: auto-update flag and
interval (modelled in seconds). -/
structure UpdatesConfig where
  auto_update : Bool
  auto_update_interval : Nat

/-- `should_update_cache` (src/main.rs lines 156-160), with the elapsed time
since the last cache update hoisted to a parameter (`none` when the cache
has never been populated). -/
def should_update_cache (update : Bool) (cfg : UpdatesConfig) (last_update : Option Nat) : Bool :=
  update ||
    (cfg.auto_update &&
      (match last_update with
       | none => true
       | some ago => decide (cfg.auto_update_interval ≤ ago)))

/-- The code-fence character of the page dialect (backtick, U+0060). -/
def btick : Char := Char.ofNat 96

/-- The placeholder opening-brace character (U+007B). -/
def lbr : Char := Char.ofNat 123

/-- The placeholder closing-brace character (U+007D). -/
def rbr : Char := Char.ofNat 125

/-- Modelled from the spec: a code span of the missing `tokenizer.rs` —
literal text or a placeholder the user must substitute. -/
inductive CodeSpan : Type
  | literal (s : List Char)
  | placeholder (s : List Char)
deriving DecidableEq

/-- Modelled from the spec: the token vocabulary of the missing
`tokenizer.rs` — `Title`, `Description`, `ExampleText`, and `ExampleCode`
holding a sequence of code spans. -/
inductive Token : Type
  | title (s : List Char)
  | description (s : List Char)
  | exampleText (s : List Char)
  | exampleCode (spans : List CodeSpan)
deriving DecidableEq

/-- Concatenation of a list of strings. -/
def concatAll : List (List Char) → List Char
  | [] => []
  | x :: xs => x ++ concatAll xs

/-- Scans left to right for the first doubled occurrence of the delimiter
character `d`, returning the text before it and the text after it. -/
def findDelim (d : Char) : List Char → Option (List Char × List Char)
  | [] => none
  | c :: rest =>
    if c = d ∧ rest.head? = some d then some ([], rest.tail)
    else
      match findDelim d rest with
      | none => none
      | some p => some (c :: p.1, p.2)

/-- Modelled from the spec: the code-span scanner of the missing
`tokenizer.rs`. Scans left to right for a `\x7b\x7b` opening delimiter and a
matching `\x7d\x7d` closer; a non-terminated opening delimiter is treated as
literal text. Structured with explicit fuel (each step strictly shrinks the
input, so `parseSpans` supplies enough). -/
def parseSpansF : Nat → List Char → List CodeSpan
  | 0, s => [CodeSpan.literal s]
  | fuel + 1, s =>
    match findDelim lbr s with
    | none => [CodeSpan.literal s]
    | some po =>
      match findDelim rbr po.2 with
      | none => [CodeSpan.literal s]
      | some pc =>
        CodeSpan.literal po.1 :: CodeSpan.placeholder pc.1 :: parseSpansF fuel pc.2

/-- Splits the content of a code line into its code spans. -/
def parseSpans (s : List Char) : List CodeSpan :=
  parseSpansF s.length s

/-- The textual content of a code span (placeholder delimiters stripped). -/
def spanText : CodeSpan → List Char
  | CodeSpan.literal s => s
  | CodeSpan.placeholder s => s

/-- The textual content of a sequence of code spans, concatenated. -/
def spansText (spans : List CodeSpan) : List Char :=
  concatAll (spans.map spanText)

/-- Re-renders a code span to source form, placeholder delimiters re-added. -/
def renderSpan : CodeSpan → List Char
  | CodeSpan.literal s => s
  | CodeSpan.placeholder s => lbr :: lbr :: (s ++ [rbr, rbr])

/-- Re-renders a sequence of code spans to the source command text. -/
def renderSpans (spans : List CodeSpan) : List Char :=
  concatAll (spans.map renderSpan)

/-- Strips one trailing separator colon from an example-text line. -/
def stripTrailingColon (s : List Char) : List Char :=
  if s.getLast? = some ':' then s.dropLast else s

/-- A blank line: empty or spaces only. -/
def isBlank (s : List Char) : Bool :=
  s.all (fun c => c == ' ')

/-- Modelled from the spec: line classification of the missing
`tokenizer.rs`, driven by the page dialect's line prefixes — `#` for the
title, `>` for description, `-` for example text (bullet stripped, trailing
separator colon stripped), a line delimited by the code-fence character at
both ends for example code, and any other non-blank line passed through as
literal description content. -/
def tokenizeLine (s : List Char) : Token :=
  match s with
  | '#' :: ' ' :: rest => Token.title rest
  | '>' :: ' ' :: rest => Token.description rest
  | '-' :: ' ' :: rest => Token.exampleText (stripTrailingColon rest)
  | other =>
    if 2 ≤ other.length ∧ other.head? = some btick ∧ other.getLast? = some btick
    then Token.exampleCode (parseSpans ((other.drop 1).dropLast))
    else Token.description other

/-- Modelled from the spec: the tokenizer of the missing `tokenizer.rs` — a
single forward pass over the source lines, producing one token per non-blank
line; blank lines are separators and produce no token. -/
def tokenize : List (List Char) → List Token
  | [] => []
  | l :: rest =>
    if isBlank l then tokenize rest
    else tokenizeLine l :: tokenize rest

/-- The literal text carried by a token. -/
def tokenText : Token → List Char
  | Token.title s => s
  | Token.description s => s
  | Token.exampleText s => s
  | Token.exampleCode spans => spansText spans

/-- The concatenated literal text of a token sequence. -/
def tokensText (ts : List Token) : List Char :=
  concatAll (ts.map tokenText)

/-- Zero or more ExampleText/ExampleCode pairs. -/
def pairsOnly : List Token → Bool
  | [] => true
  | Token.exampleText _ :: Token.exampleCode _ :: rest => pairsOnly rest
  | _ => false

/-- Zero or more descriptions followed by example pairs. -/
def afterTitle : List Token → Bool
  | Token.description _ :: rest => afterTitle rest
  | ts => pairsOnly ts

/-- A well-formed page: exactly one title token, then zero or more
descriptions, then interleaved ExampleText/ExampleCode pairs. -/
def wellFormedPage (lines : List (List Char)) : Bool :=
  match tokenize lines with
  | Token.title _ :: rest => afterTitle rest
  | _ => false

/-- A concrete well-formed page used to evaluate the tokenizer. -/
def exPage : List (List Char) :=
  [("# tar".toList), ("- Example:".toList), (btick :: 'l' :: 's' :: [btick])]

/-- A file named by a page lookup result. -/
inductive PageFile : Type
  | customOverride
  | customPatch
  | official (lang platform : List Char)
deriving DecidableEq

/-- Modelled from the spec: the file-existence environment seen by the page
resolver of the missing `cache.rs` — whether an official page exists for a
given language and platform, and whether the custom full-override file
(`<custom_dir>/<command>.md`) and custom patch file
(`<custom_dir>/<command>.patch.md`) exist, for one fixed command. -/
structure PageEnv where
  officialExists : List Char → List Char → Bool
  customOverrideExists : Bool
  customPatchExists : Bool

/-- Modelled from the spec: the file-composition rule of the missing
`cache.rs` for one language/platform pair — a custom full-override file alone
when it exists; otherwise the official file, followed by the custom patch
file when that exists; no match when no official file exists. -/
def composeFor (env : PageEnv) (lang platform : List Char) : Option (List PageFile) :=
  if env.customOverrideExists = true then some [PageFile.customOverride]
  else if env.officialExists lang platform = true then
    if env.customPatchExists = true then
      some [PageFile.official lang platform, PageFile.customPatch]
    else some [PageFile.official lang platform]
  else none

/-- Modelled from the spec: inner platform loop of `find_page` — the
platform-specific directory is checked before the shared/common one. -/
def findInPlatforms (env : PageEnv) (lang : List Char) : List (List Char) → Option (List PageFile)
  | [] => none
  | p :: ps =>
    match composeFor env lang p with
    | some r => some r
    | none => findInPlatforms env lang ps

/-- Modelled from the spec: `find_page` of the missing `cache.rs` — outer
loop over languages in list order, inner loop over platforms; the first
language/platform pair that composes a result wins. -/
def find_page (env : PageEnv) : List (List Char) → List (List Char) → Option (List PageFile)
  | [], _ => none
  | l :: ls, platforms =>
    match findInPlatforms env l platforms with
    | some r => some r
    | none => find_page env ls platforms

theorem mem_dedupAux {α : Type} [DecidableEq α] (a : α) :
    ∀ (l seen : List α), a ∈ dedupAux l seen ↔ a ∈ l ∧ a ∉ seen
  | [], seen => by simp [dedupAux]
  | x :: xs, seen => by
    by_cases hx : x ∈ seen
    · rw [dedupAux, if_pos hx, mem_dedupAux a xs seen]
      constructor
      · intro h
        exact ⟨List.mem_cons_of_mem _ h.1, h.2⟩
      · rintro ⟨h1, h2⟩
        rcases List.mem_cons.mp h1 with rfl | h1
        · exact absurd hx h2
        · exact ⟨h1, h2⟩
    · rw [dedupAux, if_neg hx]
      rw [List.mem_cons, mem_dedupAux a xs (x :: seen)]
      constructor
      · rintro (rfl | ⟨h1, h2⟩)
        · exact ⟨List.mem_cons_self _ _, hx⟩
        · exact ⟨List.mem_cons_of_mem _ h1, fun hs => h2 (List.mem_cons_of_mem _ hs)⟩
      · rintro ⟨h1, h2⟩
        by_cases hax : a = x
        · exact Or.inl hax
        · rcases List.mem_cons.mp h1 with rfl | h1
          · exact absurd rfl hax
          · refine Or.inr ⟨h1, fun hs => ?_⟩
            rcases List.mem_cons.mp hs with rfl | hs
            · exact hax rfl
            · exact h2 hs

theorem nodup_dedupAux {α : Type} [DecidableEq α] :
    ∀ (l seen : List α), (dedupAux l seen).Nodup
  | [], _ => List.nodup_nil
  | x :: xs, seen => by
    by_cases hx : x ∈ seen
    · rw [dedupAux, if_pos hx]
      exact nodup_dedupAux xs seen
    · rw [dedupAux, if_neg hx]
      refine List.nodup_cons.mpr ⟨fun hmem => ?_, nodup_dedupAux xs (x :: seen)⟩
      exact ((mem_dedupAux x xs (x :: seen)).mp hmem).2 (List.mem_cons_self _ _)

theorem mem_clear_duplicates {α : Type} [DecidableEq α] (a : α) (l : List α) :
    a ∈ clear_duplicates l ↔ a ∈ l := by
  rw [clear_duplicates, mem_dedupAux]
  simp

theorem nodup_clear_duplicates {α : Type} [DecidableEq α] (l : List α) :
    (clear_duplicates l).Nodup :=
  nodup_dedupAux l []

/-- C4: `get_languages(Some("pt_BR"), None)` is exactly `["pt_BR", "pt", "en"]`:
an `xx_YY` candidate emits its 5-byte region form then its 2-byte language
form. -/
theorem c4_country_code_expansion :
    get_languages (some ("pt_BR".toList)) none =
      some [("pt_BR".toList), ("pt".toList), ("en".toList)] := by
  decide

/-- C6: `get_languages(Some("POSIX"), None)` is exactly `["en"]`: the sentinel
candidate `"POSIX"` contributes neither a region form nor a language form. -/
theorem c6_posix_sentinel :
    get_languages (some ("POSIX".toList)) none = some [("en".toList)] := by
  decide

/-- C5: candidates are processed in locale-list order followed by the primary
locale and deduplication keeps the first occurrence:
`get_languages(Some("de"), Some("fr:cn")) = ["fr","cn","de","en"]` and
`get_languages(Some("de"), Some("fr:de:cn:de")) = ["fr","de","cn","en"]`. -/
theorem c5_preference_order :
    get_languages (some ("de".toList)) (some ("fr:cn".toList)) =
      some [("fr".toList), ("cn".toList), ("de".toList), ("en".toList)] ∧
    get_languages (some ("de".toList)) (some ("fr:de:cn:de".toList)) =
      some [("fr".toList), ("de".toList), ("cn".toList), ("en".toList)] := by
  constructor
  · decide
  · decide

/-- C7: whenever the primary locale is absent, `get_languages` returns exactly
`["en"]`, whatever the locale list is (including a non-empty one). -/
theorem c7_missing_primary_locale (env_language : Option (List Char)) :
    get_languages none env_language = some [("en".toList)] := rfl

/-- C9: with an explicit language override, the list passed to page resolution
is exactly the one-element list holding the override: `"en"` is not appended
and the environment-derived languages are ignored. -/
theorem c9_language_override (lang : List Char) (env_lang env_language : Option (List Char)) :
    commandLanguages (some lang) env_lang env_language = some [lang] := rfl

/-- C1 counterexample: the returned list does not always end in `"en"`.
With `$LANG = "de"` and `$LANGUAGE = "en"` the pre-dedup list is
`["en", "de", "en"]` and first-occurrence deduplication keeps `["en", "de"]`,
whose last element is `"de"`, not `"en"`. -/
theorem c1_counterexample :
    get_languages (some ("de".toList)) (some ("en".toList)) =
      some [("en".toList), ("de".toList)] ∧
    [("en".toList), ("de".toList)].getLast? ≠ some ("en".toList) := by
  constructor
  · decide
  · decide

/-- C1 (amended): for every pair of inputs on which `get_languages` returns a
list (does not panic), that list is non-empty, contains `"en"`, and has no
duplicate entries. (As stated, the claim's "last element is en" fails: see
the counterexample; membership of `"en"` is what holds.) -/
theorem c1_language_list_properties (env_lang env_language : Option (List Char))
    (res : List (List Char)) (h : get_languages env_lang env_language = some res) :
    res ≠ [] ∧ enS ∈ res ∧ res.Nodup := by
  match env_lang with
  | none =>
    rw [get_languages] at h
    injection h with h
    subst h
    refine ⟨by simp, by simp, by simp⟩
  | some lang =>
    rw [get_languages] at h
    rcases hp : processLocales (splitColon (env_language.getD []) ++ [lang]) with _ | list
    · rw [hp] at h
      exact absurd h (by simp)
    · rw [hp] at h
      injection h with h
      subst h
      have hmem : enS ∈ clear_duplicates (list ++ [enS]) := by
        rw [mem_clear_duplicates]
        simp
      exact ⟨List.ne_nil_of_mem hmem, hmem, nodup_clear_duplicates _⟩

/-- C1 witness: the amended theorem applied at the concrete input
(`None`, `None`), where the returned list is `["en"]`. -/
theorem c1_witness :
    [("en".toList)] ≠ ([] : List (List Char)) ∧
      enS ∈ [("en".toList)] ∧ ([("en".toList)] : List (List Char)).Nodup :=
  c1_language_list_properties none none [("en".toList)] rfl

/-- C8 counterexample: `get_languages` is not total on arbitrary Unicode
inputs. For `$LANG = "€x_YY"` the guards pass (byte length 7 ≥ 5, third
character is an underscore), but the byte slice `&locale[..2]` falls inside
the three-byte character `'€'` and panics (modelled as `none`). -/
theorem c8_counterexample :
    get_languages (some ("€x_YY".toList)) none = none := by
  decide

theorem allAscii_cons (c : Char) (l : List Char) :
    allAscii (c :: l) = (decide (c.val < 128) && allAscii l) := by
  simp [allAscii]

theorem byteLen_of_allAscii : ∀ (l : List Char), allAscii l = true → byteLen l = l.length
  | [], _ => rfl
  | c :: rest, h => by
    rw [allAscii_cons, Bool.and_eq_true, decide_eq_true_eq] at h
    have hr := byteLen_of_allAscii rest h.2
    simp only [byteLen, List.map_cons, List.sum_cons, List.length_cons] at *
    rw [utf8Len, if_pos h.1, hr]
    omega

theorem takeBytes_isSome_of_allAscii :
    ∀ (l : List Char) (n : Nat), allAscii l = true → n ≤ l.length → (takeBytes l n).isSome
  | _, 0, _, _ => by simp [takeBytes]
  | [], n + 1, _, hle => by simp at hle
  | c :: rest, n + 1, h, hle => by
    rw [allAscii_cons, Bool.and_eq_true, decide_eq_true_eq] at h
    have h1 : utf8Len c = 1 := by rw [utf8Len, if_pos h.1]
    rw [takeBytes, if_pos (by omega)]
    have : n + 1 - utf8Len c = n := by omega
    rw [this]
    have hrec := takeBytes_isSome_of_allAscii rest n h.2 (by simpa using Nat.lt_succ_iff.mp (Nat.lt_of_lt_of_le (Nat.lt_succ_self n) hle))
    rcases Option.isSome_iff_exists.mp hrec with ⟨t, ht⟩
    simp [ht]

theorem pushesFor_isSome_of_allAscii (l : List Char) (h : allAscii l = true) :
    (pushesFor l).isSome := by
  have hlen := byteLen_of_allAscii l h
  rw [pushesFor]
  have hfive : (if 5 ≤ byteLen l ∧ l.get? 2 = some '_' then (takeBytes l 5).map (fun s => [s]) else some []).isSome := by
    by_cases hc : 5 ≤ byteLen l ∧ l.get? 2 = some '_'
    · rw [if_pos hc]
      rcases Option.isSome_iff_exists.mp
        (takeBytes_isSome_of_allAscii l 5 h (by omega)) with ⟨t, ht⟩
      simp [ht]
    · rw [if_neg hc]
      simp
  rcases Option.isSome_iff_exists.mp hfive with ⟨a, ha⟩
  rw [ha]
  have htwo : (if 2 ≤ byteLen l ∧ l ≠ posixS then (takeBytes l 2).map (fun s => [s]) else some []).isSome := by
    by_cases hc : 2 ≤ byteLen l ∧ l ≠ posixS
    · rw [if_pos hc]
      rcases Option.isSome_iff_exists.mp
        (takeBytes_isSome_of_allAscii l 2 h (by omega)) with ⟨t, ht⟩
      simp [ht]
    · rw [if_neg hc]
      simp
  rcases Option.isSome_iff_exists.mp htwo with ⟨b, hb⟩
  rw [hb]
  simp

theorem processLocales_isSome :
    ∀ (ls : List (List Char)), (∀ l ∈ ls, allAscii l = true) → (processLocales ls).isSome
  | [], _ => by simp [processLocales]
  | l :: rest, h => by
    rw [processLocales]
    rcases Option.isSome_iff_exists.mp
      (pushesFor_isSome_of_allAscii l (h l (List.mem_cons_self _ _))) with ⟨a, ha⟩
    rw [ha]
    rcases Option.isSome_iff_exists.mp
      (processLocales_isSome rest (fun x hx => h x (List.mem_cons_of_mem _ hx))) with ⟨b, hb⟩
    rw [hb]
    simp

theorem splitColonAux_allAscii :
    ∀ (s acc : List Char), allAscii s = true → allAscii acc = true →
      ∀ p ∈ splitColonAux s acc, allAscii p = true
  | [], acc, _, hacc, p, hp => by
    rw [splitColonAux] at hp
    rcases List.mem_singleton.mp hp with rfl
    simpa [allAscii] using hacc
  | c :: rest, acc, hs, hacc, p, hp => by
    rw [allAscii_cons, Bool.and_eq_true] at hs
    rw [splitColonAux] at hp
    by_cases hc : c = ':'
    · rw [if_pos hc] at hp
      rcases List.mem_cons.mp hp with rfl | hp
      · simpa [allAscii] using hacc
      · exact splitColonAux_allAscii rest [] hs.2 rfl p hp
    · rw [if_neg hc] at hp
      refine splitColonAux_allAscii rest (c :: acc) hs.2 ?_ p hp
      rw [allAscii_cons, Bool.and_eq_true]
      exact ⟨hs.1, hacc⟩

/-- C8 (amended): `get_languages` returns a result without panicking whenever
every character of both inputs is ASCII (single-byte); on such inputs the
guarding length and underscore checks do ensure the byte slices `[..5]` and
`[..2]` fall on character boundaries. On general Unicode input it can panic
(see the counterexample). -/
theorem c8_ascii_totality (env_lang env_language : Option (List Char))
    (h1 : optionAllAscii env_lang = true) (h2 : optionAllAscii env_language = true) :
    (get_languages env_lang env_language).isSome := by
  match env_lang with
  | none => simp [get_languages]
  | some lang =>
    rw [get_languages]
    have hall : ∀ l ∈ splitColon (env_language.getD []) ++ [lang], allAscii l = true := by
      intro l hl
      rcases List.mem_append.mp hl with hl | hl
      · match env_language with
        | none =>
          simp only [Option.getD] at hl
          rw [splitColon, splitColonAux] at hl
          rcases List.mem_singleton.mp hl with rfl
          rfl
        | some s =>
          exact splitColonAux_allAscii s [] h2 rfl l hl
      · rcases List.mem_singleton.mp hl with rfl
        exact h1
    rcases Option.isSome_iff_exists.mp
      (processLocales_isSome _ hall) with ⟨list, hlist⟩
    rw [hlist]
    simp

/-- C8 witness: the amended theorem applied at the concrete ASCII input
(`Some("pt_BR")`, `None`). -/
theorem c8_witness :
    optionAllAscii (some ("pt_BR".toList)) = true ∧
      optionAllAscii none = true ∧
      (get_languages (some ("pt_BR".toList)) none).isSome :=
  ⟨by decide, by decide, c8_ascii_totality (some ("pt_BR".toList)) none (by decide) (by decide)⟩

theorem findDelim_eq (d : Char) :
    ∀ (s b a : List Char), findDelim d s = some (b, a) → s = b ++ d :: d :: a
  | [], b, a, h => by simp [findDelim] at h
  | c :: rest, b, a, h => by
    rw [findDelim] at h
    by_cases hc : c = d ∧ rest.head? = some d
    · rw [if_pos hc] at h
      obtain ⟨hcd, hhd⟩ := hc
      cases rest with
      | nil => simp at hhd
      | cons r rs =>
        simp only [List.head?] at hhd
        injection hhd with hrd
        simp only [List.tail] at h
        injection h with h
        injection h with hb ha
        subst hb
        subst ha
        subst hcd
        subst hrd
        rfl
    · rw [if_neg hc] at h
      rcases hrec : findDelim d rest with _ | p
      · rw [hrec] at h
        exact absurd h (by simp)
      · rw [hrec] at h
        injection h with h
        injection h with hb ha
        have hr := findDelim_eq d rest p.1 p.2 (by rw [hrec])
        subst hb
        subst ha
        rw [List.cons_append, hr]

theorem renderSpans_parseSpansF :
    ∀ (fuel : Nat) (s : List Char), renderSpans (parseSpansF fuel s) = s
  | 0, s => by simp [parseSpansF, renderSpans, renderSpan, concatAll]
  | fuel + 1, s => by
    rw [parseSpansF]
    rcases ho : findDelim lbr s with _ | po
    · simp [renderSpans, renderSpan, concatAll]
    · dsimp only
      rcases hc : findDelim rbr po.2 with _ | pc
      · simp [renderSpans, renderSpan, concatAll]
      · dsimp only
        have hs := findDelim_eq lbr s po.1 po.2 (by rw [ho])
        have ha := findDelim_eq rbr po.2 pc.1 pc.2 (by rw [hc])
        have ih := renderSpans_parseSpansF fuel pc.2
        simp only [renderSpans, List.map_cons, concatAll, renderSpan] at *
        rw [ih, hs, ha]
        simp

theorem tokenize_eq_filter_map :
    ∀ (lines : List (List Char)),
      tokenize lines = (lines.filter (fun l => !isBlank l)).map tokenizeLine
  | [] => rfl
  | l :: rest => by
    rw [tokenize, tokenize_eq_filter_map rest]
    by_cases hb : isBlank l
    · rw [if_pos hb]
      simp [List.filter_cons, hb]
    · rw [if_neg hb]
      simp [List.filter_cons, hb]

/-- C3 counterexample: the strict round-trip fails on a well-formed page. On
the page `["# tar", "- Example:", "(backtick)ls(backtick)"]` the ordered
concatenation of the tokens' literal text is `"tarExamplels"`, which does not
reproduce the non-blank source lines: the title marker, the bullet, the
trailing separator colon, and the code-fence characters are stripped. -/
theorem c3_counterexample :
    wellFormedPage exPage = true ∧
      tokensText (tokenize exPage) ≠ concatAll (exPage.filter (fun l => !isBlank l)) := by
  constructor
  · decide
  · decide

/-- C3 (amended): the tokenizer emits exactly one token per non-blank source
line, in source order (blank lines emit nothing); each token's literal text
is its line's content with the structural marker stripped, so the strict
concatenation round-trip of the claim holds only up to those markers. For
code lines the spans do reproduce the command text exactly: re-attaching the
placeholder delimiters to the parsed spans reproduces the line's content
verbatim, and on the spec's example the spans' textual content is the command
text with the delimiters stripped. -/
theorem c3_tokenizer_structure :
    (∀ lines : List (List Char),
        tokenize lines = (lines.filter (fun l => !isBlank l)).map tokenizeLine) ∧
    (∀ s : List Char, renderSpans (parseSpans s) = s) ∧
    parseSpans (renderSpans
        [CodeSpan.literal ("cmd ".toList), CodeSpan.placeholder ("file".toList),
          CodeSpan.literal (" --flag".toList)]) =
      [CodeSpan.literal ("cmd ".toList), CodeSpan.placeholder ("file".toList),
        CodeSpan.literal (" --flag".toList)] := by
  refine ⟨tokenize_eq_filter_map, fun s => renderSpans_parseSpansF s.length s, ?_⟩
  decide

theorem composeFor_shape (env : PageEnv) (lang platform : List Char)
    (hov : env.customOverrideExists = false) (hpa : env.customPatchExists = true)
    (r : List PageFile) (h : composeFor env lang platform = some r) :
    env.officialExists lang platform = true ∧
      r = [PageFile.official lang platform, PageFile.customPatch] := by
  rw [composeFor, hov] at h
  simp only [Bool.false_eq_true, if_false] at h
  by_cases hof : env.officialExists lang platform = true
  · rw [if_pos hof, hpa, if_pos rfl] at h
    injection h with h
    exact ⟨hof, h.symm⟩
  · rw [if_neg hof] at h
    exact absurd h (by simp)

theorem findInPlatforms_shape (env : PageEnv)
    (hov : env.customOverrideExists = false) (hpa : env.customPatchExists = true)
    (lang : List Char) :
    ∀ (platforms : List (List Char)) (r : List PageFile),
      findInPlatforms env lang platforms = some r →
      ∃ platform, env.officialExists lang platform = true ∧
        r = [PageFile.official lang platform, PageFile.customPatch]
  | [], r, h => by simp [findInPlatforms] at h
  | p :: ps, r, h => by
    rw [findInPlatforms] at h
    rcases hcp : composeFor env lang p with _ | r'
    · rw [hcp] at h
      exact findInPlatforms_shape env hov hpa lang ps r h
    · rw [hcp] at h
      injection h with h
      subst h
      exact ⟨p, composeFor_shape env lang p hov hpa r' hcp⟩

theorem find_page_shape (env : PageEnv)
    (hov : env.customOverrideExists = false) (hpa : env.customPatchExists = true) :
    ∀ (languages platforms : List (List Char)) (r : List PageFile),
      find_page env languages platforms = some r →
      ∃ lang platform, env.officialExists lang platform = true ∧
        r = [PageFile.official lang platform, PageFile.customPatch]
  | [], _, r, h => by simp [find_page] at h
  | l :: ls, platforms, r, h => by
    rw [find_page] at h
    rcases hfp : findInPlatforms env l platforms with _ | r'
    · rw [hfp] at h
      exact find_page_shape env hov hpa ls platforms r h
    · rw [hfp] at h
      injection h with h
      subst h
      rcases findInPlatforms_shape env hov hpa l platforms r' hfp with ⟨p, hp⟩
      exact ⟨l, p, hp⟩

/-- C2: resolution precedence. When the custom full-override file exists the
result is the override alone (a length-1 result), whatever official pages
exist; when the override does not exist but the custom patch file does, any
successful resolution returns exactly the official file then the patch, in
that order. -/
theorem c2_resolution_precedence (env : PageEnv) (languages platforms : List (List Char)) :
    (env.customOverrideExists = true → languages ≠ [] → platforms ≠ [] →
      find_page env languages platforms = some [PageFile.customOverride]) ∧
    (env.customOverrideExists = false → env.customPatchExists = true →
      ∀ r, find_page env languages platforms = some r →
        ∃ lang platform, env.officialExists lang platform = true ∧
          r = [PageFile.official lang platform, PageFile.customPatch]) := by
  constructor
  · intro hov hl hp
    match languages, platforms with
    | [], _ => exact absurd rfl hl
    | _ :: _, [] => exact absurd rfl hp
    | l :: ls, p :: ps =>
      rw [find_page, findInPlatforms, composeFor, hov, if_pos rfl]
  · intro hov hpa r h
    exact find_page_shape env hov hpa languages platforms r h

/-- C2 witness: the precedence theorem applied to concrete environments —
one where the override and official files exist (the override alone is
returned), and one where only the patch and official files exist (official
then patch is returned). -/
theorem c2_witness :
    find_page (PageEnv.mk (fun _ _ => true) true false)
        [("en".toList)] [("linux".toList), ("common".toList)] =
      some [PageFile.customOverride] ∧
    (∃ lang platform,
      (PageEnv.mk (fun _ _ => true) false true).officialExists lang platform = true ∧
        [PageFile.official ("en".toList) ("linux".toList), PageFile.customPatch] =
          [PageFile.official lang platform, PageFile.customPatch]) :=
  ⟨(c2_resolution_precedence (PageEnv.mk (fun _ _ => true) true false)
      [("en".toList)] [("linux".toList), ("common".toList)]).1 rfl (by decide) (by decide),
   (c2_resolution_precedence (PageEnv.mk (fun _ _ => true) false true)
      [("en".toList)] [("linux".toList), ("common".toList)]).2 rfl rfl
      [PageFile.official ("en".toList) ("linux".toList), PageFile.customPatch] (by decide)⟩

/-- C10: `should_update_cache` is true iff the explicit update flag is set, or
auto-update is enabled and either the cache was never populated or the
elapsed time since the last update is at least the configured interval. -/
theorem c10_should_update_cache_iff (update auto : Bool) (interval : Nat)
    (last_update : Option Nat) :
    should_update_cache update (UpdatesConfig.mk auto interval) last_update = true ↔
      (update = true ∨
        (auto = true ∧ (last_update = none ∨ ∃ ago, last_update = some ago ∧ interval ≤ ago))) := by
  cases update
  · cases auto
    · simp [should_update_cache]
    · cases last_update with
      | none => simp [should_update_cache]
      | some ago => simp [should_update_cache]
  · simp [should_update_cache]
